import Mathlib

/-!
Shallow embedding of the memoization / normalization core of
`pkg/sql/opt/norm/factory.go` (the Factory, the rule-cycle guard, and the
Memo interface the Factory drives), together with theorems settling the
specification claims about it.

Conventions of the embedding:
* `memo.GroupID` is a `Nat` index into the Memo's group list.
* A `memo.Fingerprint` is the canonical encoding of
  (operator tag, operator-specific data, child group ids); two fingerprints
  are byte-identical exactly when the three components coincide, so the
  fingerprint is modelled as that triple.
* Go slices backing the cycle-guard stack are modelled at two levels:
  as the list of fingerprints (the observable stack state), and — for the
  storage-reuse claim about `ruleCycles.init` — as a `GoSlice` that also
  tracks capacity and nil-ness.
* Code of the repository that is not part of the extracted source
  (the `memo` package internals, `checkExpr`, the generated construction
  pipeline, the placeholder walk) is modelled from the spec; each such
  definition's doc comment says so.
-/

namespace Norm

/-- Operator tags. The concrete catalog of operators is external; the tags
the extracted source mentions (`Null`, `True`, `False`, `Const`, the
placeholder leaf) are distinguished constructors and all remaining
operators are `other n`. -/
inductive Op where
  | nullOp
  | trueOp
  | falseOp
  | constOp
  | placeholderOp
  | other (n : Nat)
deriving DecidableEq, Repr

/-- `memo.Expr`: an immutable node, an operator tag plus operator-specific
static data plus an ordered list of child group references. -/
structure Expr where
  op : Op
  data : Nat
  children : List Nat
deriving DecidableEq, Repr

/-- `memo.Fingerprint`: canonical order-sensitive encoding of
(operator tag, operator-specific data, child group ids). Two fingerprints
are byte-identical iff the three components are equal, which is exactly
structural equality of this triple. -/
structure Fingerprint where
  op : Op
  data : Nat
  children : List Nat
deriving DecidableEq, Repr

/-- The fingerprint of an expression. -/
def Expr.fingerprint (e : Expr) : Fingerprint :=
  ⟨e.op, e.data, e.children⟩

/-- Fingerprint equality determines expression equality (the encoding is
injective). -/
theorem Expr.fingerprint_inj {e1 e2 : Expr}
    (h : e1.fingerprint = e2.fingerprint) : e1 = e2 := by
  cases e1; cases e2
  simp [Expr.fingerprint] at h
  simp [h.1, h.2.1, h.2.2]

/-! ## The rule-cycle guard (`ruleCycles` in factory.go)

`ruleCycles` implements a stack of "seen" memo expression fingerprints so
that it can detect rule cycles. The observable state is the list of
fingerprints, most recently pushed last (matching the Go slice order). -/

/-- `ruleCycles`: the cycle-guard stack of fingerprints. -/
structure RuleCycles where
  stack : List Fingerprint
deriving DecidableEq, Repr

namespace RuleCycles

/-- `ruleCycles.detectCycle`: returns true if the expression fingerprint is
already on the stack, scanning as the Go loop does. -/
def detectCycle (rc : RuleCycles) (f : Fingerprint) : Bool :=
  rc.stack.any (fun existing => existing == f)

/-- `ruleCycles.push`: appends the fingerprint to the stack
(`rc.stack = append(rc.stack, f)`). -/
def push (rc : RuleCycles) (f : Fingerprint) : RuleCycles :=
  ⟨rc.stack ++ [f]⟩

/-- `ruleCycles.pop`: removes the last fingerprint
(`rc.stack = rc.stack[:len(rc.stack)-1]`). On an empty stack the Go slice
expression `rc.stack[:len(rc.stack)-1]` is out of bounds and panics;
the panic is modelled as `none`. -/
def pop (rc : RuleCycles) : Option RuleCycles :=
  match rc.stack with
  | [] => none
  | _ :: _ => some ⟨rc.stack.dropLast⟩

end RuleCycles

/-! Balanced traces of guard operations: every guarded rule invocation
pushes once and pops exactly once on every exit path, with the recursive
invocations it makes nested strictly inside. -/

/-- One operation on the cycle-guard stack. -/
inductive GuardOp where
  | pushFp (f : Fingerprint)
  | popFp
deriving DecidableEq, Repr

/-- Run a sequence of guard operations on a stack; `none` models the
slice-bounds panic of popping an empty stack. -/
def runGuard : List GuardOp → RuleCycles → Option RuleCycles
  | [], rc => some rc
  | GuardOp.pushFp f :: rest, rc => runGuard rest (rc.push f)
  | GuardOp.popFp :: rest, rc =>
      match rc.pop with
      | none => none
      | some rc1 => runGuard rest rc1

/-- Balanced sequences of guard operations: each push is matched by a pop
on every exit path, with nested invocations strictly inside. -/
inductive BalancedGuard : List GuardOp → Prop where
  | nil : BalancedGuard []
  | wrap (f : Fingerprint) (ops : List GuardOp) :
      BalancedGuard ops →
      BalancedGuard (GuardOp.pushFp f :: ops ++ [GuardOp.popFp])
  | seq (a b : List GuardOp) :
      BalancedGuard a → BalancedGuard b → BalancedGuard (a ++ b)

theorem runGuard_append (a b : List GuardOp) (rc : RuleCycles) :
    runGuard (a ++ b) rc =
      match runGuard a rc with
      | none => none
      | some rc1 => runGuard b rc1 := by
  induction a generalizing rc with
  | nil => simp [runGuard]
  | cons op rest ih =>
      cases op with
      | pushFp f => simp [runGuard, ih]
      | popFp =>
          cases h : rc.pop with
          | none => simp [runGuard, h]
          | some rc1 => simp [runGuard, h, ih]

/-- A balanced sequence of guard operations runs without popping an empty
stack and restores the stack exactly. -/
theorem runGuard_balanced {ops : List GuardOp} (h : BalancedGuard ops) :
    ∀ rc : RuleCycles, runGuard ops rc = some rc := by
  induction h with
  | nil => intro rc; rfl
  | wrap f inner _ ih =>
      intro rc
      have hpop : (rc.push f).pop = some rc := by
        cases rc with
        | mk st =>
            simp [RuleCycles.push, RuleCycles.pop]
            cases st <;> simp [List.dropLast_concat]
      have h1 : runGuard (GuardOp.pushFp f :: inner ++ [GuardOp.popFp]) rc
          = runGuard (inner ++ [GuardOp.popFp]) (rc.push f) := rfl
      rw [h1, runGuard_append, ih (rc.push f)]
      simp [runGuard, hpop]
  | seq a b _ _ iha ihb =>
      intro rc
      rw [runGuard_append, iha rc]
      exact ihb rc

/-! ## Go slices with capacity, for the storage-reuse behavior of
`ruleCycles.init` -/

/-- A Go slice at the granularity of its backing storage: the element
data, the capacity of the backing array, and whether the slice is nil.
A nil slice has no backing array at all. -/
structure GoSlice (α : Type) where
  data : List α
  cap : Nat
  isNil : Bool
  nil_no_storage : isNil = true → data = [] ∧ cap = 0

/-- `ruleCycles.init` at slice granularity:
`if rc.stack != nil { rc.stack = rc.stack[:0] }` — a non-nil stack is
truncated to length zero in place (same backing array, same capacity);
a nil stack is left nil. No allocation happens in either case. -/
def ruleCyclesInitSlice (s : GoSlice Fingerprint) : GoSlice Fingerprint :=
  if h : s.isNil = true then s
  else
    { data := [], cap := s.cap, isNil := s.isNil,
      nil_no_storage := fun hn => absurd hn h }

/-! ## Datums and types (`tree.Datum`, `types.T`)

The datum and type catalogs are external to the extracted source; the
embedding distinguishes the cases `ConstructConstVal` branches on. -/

/-- `tree.Datum`: the null datum, boolean datums, and all other datums
(collapsed to an integer payload with a kind tag). -/
inductive Datum where
  | dNull
  | dBool (b : Bool)
  | dOther (kind : Nat) (val : Int)
deriving DecidableEq, Repr

/-- `types.T`: the `Unknown` type and all other types. -/
inductive Ty where
  | unknown
  | otherTy (n : Nat)
deriving DecidableEq, Repr

/-! ## The Memo

Modelled from the spec: the `memo` package internals are not part of the
extracted source. The Memo owns the group list (one canonical member per
group, indexed by position = `GroupID`), the fingerprint index (realized
by fingerprint search over canonical members), the intern tables, and the
root group/properties installed by `SetRoot`. -/

/-- Modelled from the spec: derived logical properties are computed once
from a group's canonical member and are a pure function of it; the model
uses the most distinguishing such function, the canonical member itself. -/
def deriveProps (e : Expr) : Expr := e

/-- Modelled from the spec: generic intern table lookup-or-insert.
If an equal payload (deep structural equality) is already in the table,
return its existing handle; otherwise append the payload and return the
next handle. -/
def intern {α : Type} [DecidableEq α] (table : List α) (x : α) :
    List α × Nat :=
  match table.findIdx? (fun y => y == x) with
  | some i => (table, i)
  | none => (table ++ [x], table.length)

/-- Modelled from the spec: the Memo. `groups` holds each group's
canonical member at index `GroupID`; `listTable`, `typeTable` and
`datumTable` are the intern tables; `rootGroup`/`rootProps` are the values
installed by `SetRoot`. -/
structure Memo where
  groups : List Expr
  listTable : List (List Nat)
  typeTable : List Ty
  datumTable : List Datum
  rootGroup : Nat
  rootProps : Expr
deriving DecidableEq, Repr

namespace Memo

/-- Modelled from the spec: `Memo.Init` — a new, blank memo. -/
def blank : Memo :=
  ⟨[], [], [], [], 0, ⟨Op.other 0, 0, []⟩⟩

/-- Modelled from the spec: `MemoizeNormExpr` — compute the expression's
fingerprint; on a hit in the fingerprint index return the existing group
id (the candidate expression is discarded); otherwise allocate a new group
with this expression as sole canonical member and return its id. -/
def memoizeNormExpr (m : Memo) (e : Expr) : Memo × Nat :=
  match m.groups.findIdx? (fun g => g.fingerprint == e.fingerprint) with
  | some i => (m, i)
  | none => ({ m with groups := m.groups ++ [e] }, m.groups.length)

/-- Modelled from the spec: `Memo.InternList`. -/
def internList (m : Memo) (items : List Nat) : Memo × Nat :=
  let r := intern m.listTable items
  ({ m with listTable := r.1 }, r.2)

/-- Modelled from the spec: `Memo.InternType`. -/
def internType (m : Memo) (t : Ty) : Memo × Nat :=
  let r := intern m.typeTable t
  ({ m with typeTable := r.1 }, r.2)

/-- Modelled from the spec: `Memo.InternDatum`. -/
def internDatum (m : Memo) (d : Datum) : Memo × Nat :=
  let r := intern m.datumTable d
  ({ m with datumTable := r.1 }, r.2)

/-- Modelled from the spec: `Memo.SetRoot` — install the given group and
properties as the memo's root. -/
def setRoot (m : Memo) (g : Nat) (props : Expr) : Memo :=
  { m with rootGroup := g, rootProps := props }

end Memo

/-! ## The Factory -/

/-- `Factory`: the builder state the extracted source defines — the memo,
the matched/applied rule callbacks, and the rule-cycle guard.
`appliedRule` callbacks only observe, so the model records whether one is
installed; notifications fired are returned by `construct` as an event
list. -/
structure Factory where
  evalCtx : Nat
  mem : Memo
  matchedRule : Option (Nat → Bool)
  appliedRule : Bool
  ruleCycles : RuleCycles

namespace Factory

/-- `Factory.Init`: reset the factory — blank memo, both callbacks nil,
cycle-guard stack emptied. -/
def Init (f : Factory) (evalCtx : Nat) : Factory :=
  { evalCtx := evalCtx
    mem := Memo.blank
    matchedRule := none
    appliedRule := false
    ruleCycles := ⟨f.ruleCycles.stack.take 0⟩ }

/-- `Factory.NotifyOnMatchedRule`. -/
def NotifyOnMatchedRule (f : Factory) (cb : Option (Nat → Bool)) : Factory :=
  { f with matchedRule := cb }

/-- `Factory.DisableOptimizations`: install a matched-rule callback that
returns false for every rule name. -/
def DisableOptimizations (f : Factory) : Factory :=
  f.NotifyOnMatchedRule (some (fun _ => false))

/-- `Factory.InternList`: delegates to the memo's intern table. -/
def InternList (f : Factory) (items : List Nat) : Factory × Nat :=
  let r := f.mem.internList items
  ({ f with mem := r.1 }, r.2)

/-- Modelled from the spec: `checkExpr` — the debug-only consistency
check, cross-validating the re-derived logical properties of the resulting
group against the properties implied by the just-constructed expression. -/
def checkExpr (m : Memo) (g : Nat) (e : Expr) : Bool :=
  match m.groups.get? g with
  | some canonical => deriveProps canonical == deriveProps e
  | none => false

/-- Result of `onConstruct`: the updated factory, the group id returned,
and whether/what the race-gated `checkExpr` ran (`none` when the check was
skipped). -/
structure OnConstructResult where
  factory : Factory
  group : Nat
  checkRun : Option Bool

/-- `Factory.onConstruct`: memoize the normalized expression; when the
race-detector configuration flag is set, run `checkExpr` on the result;
return the group id. -/
def onConstruct (raceEnabled : Bool) (f : Factory) (e : Expr) :
    OnConstructResult :=
  let r := f.mem.memoizeNormExpr e
  { factory := { f with mem := r.1 }
    group := r.2
    checkRun := if raceEnabled then some (checkExpr r.1 r.2 e) else none }

end Factory

/-! ## Lemmas about interning -/

theorem intern_finds_self {α : Type} [DecidableEq α] (t : List α) (x : α) :
    (intern t x).1.findIdx? (fun y => y == x) = some (intern t x).2 := by
  unfold intern
  cases h : t.findIdx? (fun y => y == x) with
  | some i => simp [h]
  | none => simp [h, List.findIdx?_append, List.findIdx?_cons]

theorem intern_entry {α : Type} [DecidableEq α] (t : List α) (x : α) :
    (intern t x).1[(intern t x).2]? = some x := by
  unfold intern
  cases h : t.findIdx? (fun y => y == x) with
  | some i =>
      have hp := List.findIdx?_of_eq_some h
      simp only []
      cases hg : t[i]? with
      | none => rw [hg] at hp; simp at hp
      | some a =>
          rw [hg] at hp
          simp at hp
          rw [hp]
  | none => simp [h]

theorem intern_preserves_entry {α : Type} [DecidableEq α] (t : List α)
    (y : α) (i : Nat) (v : α) (h : t[i]? = some v) :
    (intern t y).1[i]? = some v := by
  unfold intern
  cases hf : t.findIdx? (fun z => z == y) with
  | some j => simp [h]
  | none =>
      have hi : i < t.length := by
        by_contra hle
        rw [List.getElem?_eq_none (Nat.le_of_not_lt hle)] at h
        exact Option.noConfusion h
      simpa [List.getElem?_append_left hi] using h

theorem intern_hit {α : Type} [DecidableEq α] (t : List α) (x : α) (i : Nat)
    (h : t.findIdx? (fun y => y == x) = some i) :
    intern t x = (t, i) := by
  unfold intern
  rw [h]

/-! ## Lemmas about memoization -/

namespace Memo

/-- After memoizing `e`, the fingerprint index maps `e.fingerprint` to the
returned group id. -/
theorem memoize_finds_self (m : Memo) (e : Expr) :
    (m.memoizeNormExpr e).1.groups.findIdx?
        (fun g => g.fingerprint == e.fingerprint)
      = some (m.memoizeNormExpr e).2 := by
  unfold memoizeNormExpr
  cases h : m.groups.findIdx? (fun g => g.fingerprint == e.fingerprint) with
  | some i => simp [h]
  | none => simp [h, List.findIdx?_append, List.findIdx?_cons]

/-- Memoization only ever appends groups, so an existing fingerprint-index
entry survives any later memoization. -/
theorem memoize_preserves_found (m : Memo) (e : Expr) (p : Expr → Bool)
    (i : Nat) (h : m.groups.findIdx? p = some i) :
    (m.memoizeNormExpr e).1.groups.findIdx? p = some i := by
  unfold memoizeNormExpr
  cases hf : m.groups.findIdx? (fun g => g.fingerprint == e.fingerprint) with
  | some j => simpa using h
  | none => simp [List.findIdx?_append, h]

/-- A memoization whose fingerprint is already indexed is a pure hit:
the memo is unchanged and the existing group id is returned. -/
theorem memoize_hit (m : Memo) (e : Expr) (i : Nat)
    (h : m.groups.findIdx? (fun g => g.fingerprint == e.fingerprint)
      = some i) :
    m.memoizeNormExpr e = (m, i) := by
  unfold memoizeNormExpr
  rw [h]

end Memo

/-- A sequence of further constructions between the two calls of a dedup
pair. -/
def onConstructSeq (race : Bool) : Factory → List Expr → Factory
  | f, [] => f
  | f, e :: es => onConstructSeq race (f.onConstruct race e).factory es

theorem onConstructSeq_preserves_found (race : Bool) (es : List Expr)
    (f : Factory) (p : Expr → Bool) (i : Nat)
    (h : f.mem.groups.findIdx? p = some i) :
    (onConstructSeq race f es).mem.groups.findIdx? p = some i := by
  induction es generalizing f with
  | nil => exact h
  | cons e es ih =>
      exact ih _ (Memo.memoize_preserves_found f.mem e p i h)

/-! ## The construction protocol

Modelled from the spec: the generated construction pipeline
(`factory.og.go`) is not part of the extracted source. A rule is external
domain logic: a name, a cycle-detection tag, a match predicate and
replacement logic; replacements are built through recursive `Construct`
calls, so a replacement returns a group id and can only have grown the
memo. -/

/-- Modelled from the spec: a normalization rule as the factory invokes
it. The replacement logic operates on the memo (its own nested
cycle-guard uses are balanced by the scoped acquire-release discipline,
so the guard stack is unchanged across it) and returns the replacement's
group id. -/
structure Rule where
  name : Nat
  detectCycles : Bool
  -- `matches` in the source; that word is reserved in Lean
  matchFn : Expr → Bool
  replace : Memo → Expr → Memo × Nat

namespace Factory

/-- Whether the matched-rule callback allows the named rule to be
applied: a nil callback applies all rules by default. -/
def matchedRuleAllows (f : Factory) (name : Nat) : Bool :=
  match f.matchedRule with
  | none => true
  | some cb => cb name

/-- Modelled from the spec: candidate-rule selection in fixed priority
order — skip a rule the matched-rule callback vetoes, skip a non-match,
and treat a cycle-tagged rule whose pre-rule fingerprint is already on
the guard stack as a non-match. -/
def findMatch (f : Factory) (e : Expr) : List Rule → Option Rule
  | [] => none
  | r :: rest =>
      if f.matchedRuleAllows r.name = false then f.findMatch e rest
      else if r.matchFn e = false then f.findMatch e rest
      else if r.detectCycles && f.ruleCycles.detectCycle e.fingerprint then
        f.findMatch e rest
      else some r

/-- Modelled from the spec: the construction protocol — consult the
candidate rules in order; on a match, push the pre-rule fingerprint when
the rule is cycle-tagged, run the replacement, pop afterward, and record
an applied-rule notification when a callback is installed; with no match
(fixpoint reached) build the literal expression and hand it to the memo
via `onConstruct`. The third component is the list of applied-rule
notifications fired. -/
def construct (race : Bool) (rules : List Rule) (f : Factory) (e : Expr) :
    Factory × Nat × List Nat :=
  match f.findMatch e rules with
  | some r =>
      if r.detectCycles then
        let rc1 := f.ruleCycles.push e.fingerprint
        let res := r.replace f.mem e
        -- the pop matches the push just performed, so the stack is
        -- nonempty and the panic default is unreachable
        let rc2 := rc1.pop.getD ⟨[]⟩
        ({ f with mem := res.1, ruleCycles := rc2 }, res.2,
          if f.appliedRule then [r.name] else [])
      else
        let res := r.replace f.mem e
        ({ f with mem := res.1 }, res.2,
          if f.appliedRule then [r.name] else [])
  | none =>
      let res := f.onConstruct race e
      (res.factory, res.group, [])

/-- `Factory.InternType`: interns a type, returning its handle. -/
def InternType (f : Factory) (t : Ty) : Factory × Nat :=
  let r := f.mem.internType t
  ({ f with mem := r.1 }, r.2)

/-- `Factory.InternDatum`: interns a datum, returning its handle. -/
def InternDatum (f : Factory) (d : Datum) : Factory × Nat :=
  let r := f.mem.internDatum d
  ({ f with mem := r.1 }, r.2)

/-- Modelled from the spec: the generated `ConstructNull` — builds the
Null operator over the interned type handle, ending in `onConstruct`. -/
def ConstructNull (race : Bool) (f : Factory) (typHandle : Nat) :
    Factory × Nat :=
  let res := f.onConstruct race ⟨Op.nullOp, typHandle, []⟩
  (res.factory, res.group)

/-- Modelled from the spec: the generated `ConstructTrue`. -/
def ConstructTrue (race : Bool) (f : Factory) : Factory × Nat :=
  let res := f.onConstruct race ⟨Op.trueOp, 0, []⟩
  (res.factory, res.group)

/-- Modelled from the spec: the generated `ConstructFalse`. -/
def ConstructFalse (race : Bool) (f : Factory) : Factory × Nat :=
  let res := f.onConstruct race ⟨Op.falseOp, 0, []⟩
  (res.factory, res.group)

/-- Modelled from the spec: the generated `ConstructConst` — builds the
Const operator over the interned datum handle. -/
def ConstructConst (race : Bool) (f : Factory) (datumHandle : Nat) :
    Factory × Nat :=
  let res := f.onConstruct race ⟨Op.constOp, datumHandle, []⟩
  (res.factory, res.group)

/-- `Factory.ConstructConstVal`: the null datum constructs the Null
operator carrying the Unknown type; a boolean datum constructs the True
operator when true and the False operator when false; every other datum
constructs the Const operator over the interned datum. -/
def ConstructConstVal (race : Bool) (f : Factory) (d : Datum) :
    Factory × Nat :=
  if d = Datum.dNull then
    let it := f.InternType Ty.unknown
    ConstructNull race it.1 it.2
  else
    match d with
    | Datum.dBool true => ConstructTrue race f
    | Datum.dBool false => ConstructFalse race f
    | _ =>
        let idm := f.InternDatum d
        ConstructConst race idm.1 idm.2

end Factory

/-- Modelled from the spec: rebuild each child group of the placeholder
walk in order, threading the factory; `step` is the walk at one less
fuel. -/
def assignChildren (step : Factory → Nat → Factory × Nat) :
    Factory → List Nat → Factory × List Nat
  | f, [] => (f, [])
  | f, g :: gs =>
      let r := step f g
      let rs := assignChildren step r.1 gs
      (rs.1, r.2 :: rs.2)

/-- Modelled from the spec: `assignPlaceholders`, the rebinding walk —
walk the rooted tree; a placeholder leaf is replaced by constructing the
literal-value node carrying its assigned value; every ancestor is rebuilt
through the full construction protocol with the updated child
references. The recursion is fuelled: children of a group always have
smaller ids than their parent (the memo appends groups and children are
constructed first), so fuel `rootGroup + 1` covers the whole tree. -/
def assignGroup (race : Bool) (rules : List Rule) (asgn : Nat → Datum) :
    Nat → Factory → Nat → Factory × Nat
  | 0, f, g => (f, g)
  | fuel + 1, f, g =>
      match f.mem.groups[g]? with
      | none => (f, g)
      | some e =>
          if e.op = Op.placeholderOp then
            f.ConstructConstVal race (asgn e.data)
          else
            let r := assignChildren
              (fun f1 c => assignGroup race rules asgn fuel f1 c) f
              e.children
            let c := Factory.construct race rules r.1 ⟨e.op, e.data, r.2⟩
            (c.1, c.2.1)

/-- `Factory.AssignPlaceholders`: rebuild from the root through the
placeholder walk, then
`f.Memo().SetRoot(root, f.Memo().RootProps())` — the root group becomes
the rebuilt root, with the properties the memo's `RootProps` reports at
that moment. -/
def Factory.AssignPlaceholders (race : Bool) (rules : List Rule)
    (asgn : Nat → Datum) (f : Factory) : Factory :=
  let r := assignGroup race rules asgn (f.mem.rootGroup + 1) f
    f.mem.rootGroup
  { r.1 with mem := r.1.mem.setRoot r.2 r.1.mem.rootProps }

/-- A concrete freshly initialized factory, used by the witness
theorems. -/
def sampleFactory : Factory :=
  { evalCtx := 0, mem := Memo.blank, matchedRule := none,
    appliedRule := false, ruleCycles := ⟨[]⟩ }

/-- A concrete expression used by the witness theorems. -/
def sampleExpr : Expr := ⟨Op.trueOp, 0, []⟩

/-- A concrete fingerprint used by the witness theorems. -/
def sampleFp : Fingerprint := ⟨Op.trueOp, 0, []⟩

/-- A concrete prepared factory whose root group is a placeholder leaf
and whose root properties are those derived from that pre-rebinding
root. -/
def phFactory : Factory :=
  { evalCtx := 0,
    mem := { groups := [⟨Op.placeholderOp, 0, []⟩],
             listTable := [], typeTable := [], datumTable := [],
             rootGroup := 0,
             rootProps := deriveProps ⟨Op.placeholderOp, 0, []⟩ },
    matchedRule := none, appliedRule := false, ruleCycles := ⟨[]⟩ }

end Norm

/-! ## Claim theorems for the cycle guard -/

open Norm

/-- C2: for every cycle-guard stack state and every fingerprint `fp`,
`detectCycle fp` returns true iff `fp` is equal to some fingerprint
currently on the stack; in particular it returns false for every `fp`
when the stack is empty. -/
theorem claim_C2_detectCycle_iff_mem (rc : RuleCycles) (fp : Fingerprint) :
    (rc.detectCycle fp = true ↔ fp ∈ rc.stack) ∧
      RuleCycles.detectCycle ⟨[]⟩ fp = false := by
  constructor
  · simp [RuleCycles.detectCycle, List.any_eq_true]
  · rfl

/-- C3: push and pop are symmetric — popping right after a push restores
the stack exactly — and any balanced sequence of guarded invocations
(each push matched by a nested pop) leaves the stack where it started; in
particular, started empty it ends empty. -/
theorem claim_C3_push_pop_symmetric (rc : RuleCycles) (fp : Fingerprint) :
    (rc.push fp).pop = some rc ∧
      (∀ ops : List GuardOp, BalancedGuard ops →
        runGuard ops ⟨[]⟩ = some ⟨[]⟩) := by
  refine ⟨?_, fun ops h => runGuard_balanced h ⟨[]⟩⟩
  cases rc with
  | mk st =>
      simp [RuleCycles.push, RuleCycles.pop]
      cases st <;> simp [List.dropLast_concat]

/-- A generic fact about intern tables used by the C6 claim: a second
intern of a structurally equal payload is a pure hit, and handle equality
coincides with structural equality of the payloads. -/
theorem intern_twice {α : Type} [DecidableEq α] (t : List α) (x y : α) :
    (x = y → intern (intern t x).1 y = ((intern t x).1, (intern t x).2)) ∧
      ((intern (intern t x).1 y).2 = (intern t x).2 ↔ x = y) := by
  have hself := intern_finds_self t x
  have hhit : intern (intern t x).1 x = ((intern t x).1, (intern t x).2) :=
    intern_hit _ x _ hself
  constructor
  · intro hxy; exact hxy ▸ hhit
  · constructor
    · intro heq
      have h1 : (intern (intern t x).1 y).1[(intern t x).2]? = some x :=
        intern_preserves_entry _ y _ x (intern_entry t x)
      have h2 : (intern (intern t x).1 y).1[(intern (intern t x).1 y).2]?
          = some y := intern_entry _ y
      rw [heq, h1] at h2
      exact Option.some.inj h2
    · intro hxy
      subst hxy
      rw [hhit]

/-- C8: popping an empty cycle-guard stack is an out-of-bounds slice
operation (a runtime panic, modelled as `none`), and under the push/pop
balance discipline this failure branch is unreachable: every balanced
trace runs to completion from any starting stack. -/
theorem claim_C8_pop_empty_panics :
    RuleCycles.pop ⟨[]⟩ = none ∧
      (∀ (ops : List GuardOp) (rc : RuleCycles), BalancedGuard ops →
        runGuard ops rc ≠ none) := by
  refine ⟨rfl, fun ops rc h => ?_⟩
  rw [runGuard_balanced h rc]
  exact Option.some_ne_none rc

/-- Witness for C3 at a concrete stack, fingerprint and balanced trace. -/
theorem claim_C3_push_pop_symmetric_witness :
    (RuleCycles.push ⟨[]⟩ sampleFp).pop = some ⟨[]⟩ ∧
      runGuard [GuardOp.pushFp sampleFp, GuardOp.popFp] ⟨[]⟩ = some ⟨[]⟩ :=
  ⟨(claim_C3_push_pop_symmetric ⟨[]⟩ sampleFp).1,
    (claim_C3_push_pop_symmetric ⟨[]⟩ sampleFp).2
      [GuardOp.pushFp sampleFp, GuardOp.popFp]
      (BalancedGuard.wrap sampleFp [] BalancedGuard.nil)⟩

/-- Witness for C8: the panic branch on the empty stack, and a concrete
balanced trace running to completion on a concrete nonempty stack. -/
theorem claim_C8_pop_empty_panics_witness :
    RuleCycles.pop ⟨[]⟩ = none ∧
      runGuard [GuardOp.pushFp sampleFp, GuardOp.popFp] ⟨[sampleFp]⟩
        ≠ none :=
  ⟨claim_C8_pop_empty_panics.1,
    claim_C8_pop_empty_panics.2 [GuardOp.pushFp sampleFp, GuardOp.popFp]
      ⟨[sampleFp]⟩ (BalancedGuard.wrap sampleFp [] BalancedGuard.nil)⟩

/-- C1: for every pair of construction calls whose expressions have
byte-identical fingerprints — with any further constructions in
between — both calls return the same group id, and the second call does
not increase the memo's total group count: `onConstruct` hands the
expression to the memo, which returns the existing group on a fingerprint
hit instead of allocating a new one. -/
theorem claim_C1_memo_dedup (race : Bool) (f : Factory) (es : List Expr)
    (e1 e2 : Expr) (h : e1.fingerprint = e2.fingerprint) :
    ((onConstructSeq race (f.onConstruct race e1).factory es).onConstruct
        race e2).group = (f.onConstruct race e1).group ∧
      ((onConstructSeq race (f.onConstruct race e1).factory es).onConstruct
          race e2).factory.mem.groups.length
        = (onConstructSeq race (f.onConstruct race e1).factory
            es).mem.groups.length := by
  have hfind1 : (f.onConstruct race e1).factory.mem.groups.findIdx?
      (fun g => g.fingerprint == e2.fingerprint)
      = some (f.onConstruct race e1).group := by
    have hs := Memo.memoize_finds_self f.mem e1
    rw [h] at hs
    exact hs
  have hmid := onConstructSeq_preserves_found race es
    (f.onConstruct race e1).factory _ _ hfind1
  have hhit := Memo.memoize_hit
    (onConstructSeq race (f.onConstruct race e1).factory es).mem e2 _ hmid
  constructor
  · show ((onConstructSeq race (f.onConstruct race e1).factory
        es).mem.memoizeNormExpr e2).2 = (f.onConstruct race e1).group
    rw [hhit]
  · show ((onConstructSeq race (f.onConstruct race e1).factory
          es).mem.memoizeNormExpr e2).1.groups.length
        = (onConstructSeq race (f.onConstruct race e1).factory
            es).mem.groups.length
    rw [hhit]

/-- Witness for C1 at a concrete factory, expression and empty
interleaving. -/
theorem claim_C1_memo_dedup_witness :
    sampleExpr.fingerprint = sampleExpr.fingerprint ∧
      (((onConstructSeq false (sampleFactory.onConstruct false
            sampleExpr).factory []).onConstruct false sampleExpr).group
          = (sampleFactory.onConstruct false sampleExpr).group ∧
        ((onConstructSeq false (sampleFactory.onConstruct false
              sampleExpr).factory []).onConstruct false
            sampleExpr).factory.mem.groups.length
          = (onConstructSeq false (sampleFactory.onConstruct false
              sampleExpr).factory []).mem.groups.length) :=
  ⟨rfl, claim_C1_memo_dedup false sampleFactory [] sampleExpr sampleExpr
    rfl⟩

/-- C6: interning is idempotent — if a structurally equal payload was
interned before, the same handle is returned and the table does not
grow — and handle equality coincides with deep structural equality of the
payloads. -/
theorem claim_C6_intern_idempotent (f : Factory) (xs ys : List Nat) :
    (xs = ys →
      ((f.InternList xs).1.InternList ys).2 = (f.InternList xs).2 ∧
        ((f.InternList xs).1.InternList ys).1.mem.listTable.length
          = (f.InternList xs).1.mem.listTable.length) ∧
      (((f.InternList xs).1.InternList ys).2 = (f.InternList xs).2
        ↔ xs = ys) := by
  have hgen := intern_twice f.mem.listTable xs ys
  constructor
  · intro hxy
    have hh := hgen.1 hxy
    constructor
    · show (intern (intern f.mem.listTable xs).1 ys).2
          = (intern f.mem.listTable xs).2
      rw [hh]
    · show (intern (intern f.mem.listTable xs).1 ys).1.length
          = (intern f.mem.listTable xs).1.length
      rw [hh]
  · exact hgen.2

/-- Witness for C6 at a concrete factory and payload. -/
theorem claim_C6_intern_idempotent_witness :
    ((sampleFactory.InternList [1, 2]).1.InternList [1, 2]).2
        = (sampleFactory.InternList [1, 2]).2 ∧
      ((sampleFactory.InternList [1, 2]).1.InternList
          [1, 2]).1.mem.listTable.length
        = (sampleFactory.InternList [1, 2]).1.mem.listTable.length :=
  (claim_C6_intern_idempotent sampleFactory [1, 2] [1, 2]).1 rfl

namespace Norm

/-- The canonical member stored at the group `memoizeNormExpr` returns is
the memoized expression itself (on a hit, the stored member has the same
fingerprint, and fingerprints determine expressions). -/
theorem Memo.memoize_entry (m : Memo) (e : Expr) :
    (m.memoizeNormExpr e).1.groups[(m.memoizeNormExpr e).2]? = some e := by
  unfold Memo.memoizeNormExpr
  cases h : m.groups.findIdx? (fun g => g.fingerprint == e.fingerprint) with
  | some i =>
      have hp := List.findIdx?_of_eq_some h
      show m.groups[i]? = some e
      cases hg : m.groups[i]? with
      | none => rw [hg] at hp; simp at hp
      | some a =>
          rw [hg] at hp
          simp at hp
          rw [Expr.fingerprint_inj hp]
  | none =>
      show (m.groups ++ [e])[m.groups.length]? = some e
      simp

/-- Memoization does not touch the type intern table. -/
theorem Memo.memoize_typeTable (m : Memo) (e : Expr) :
    (m.memoizeNormExpr e).1.typeTable = m.typeTable := by
  unfold Memo.memoizeNormExpr
  cases h : m.groups.findIdx? (fun g => g.fingerprint == e.fingerprint) with
  | some i => rfl
  | none => rfl

/-- Memoization does not touch the datum intern table. -/
theorem Memo.memoize_datumTable (m : Memo) (e : Expr) :
    (m.memoizeNormExpr e).1.datumTable = m.datumTable := by
  unfold Memo.memoizeNormExpr
  cases h : m.groups.findIdx? (fun g => g.fingerprint == e.fingerprint) with
  | some i => rfl
  | none => rfl

/-- Memoization does not touch the root properties. -/
theorem Memo.memoize_rootProps (m : Memo) (e : Expr) :
    (m.memoizeNormExpr e).1.rootProps = m.rootProps := by
  unfold Memo.memoizeNormExpr
  cases h : m.groups.findIdx? (fun g => g.fingerprint == e.fingerprint) with
  | some i => rfl
  | none => rfl

/-- The canonical member at the group `onConstruct` returns is the
constructed expression. -/
theorem Factory.onConstruct_entry (race : Bool) (f : Factory) (e : Expr) :
    (f.onConstruct race e).factory.mem.groups[(f.onConstruct race
      e).group]? = some e :=
  Memo.memoize_entry f.mem e

/-- `onConstruct` does not touch the root properties. -/
theorem Factory.onConstruct_rootProps (race : Bool) (f : Factory)
    (e : Expr) :
    (f.onConstruct race e).factory.mem.rootProps = f.mem.rootProps :=
  Memo.memoize_rootProps f.mem e

/-- With an empty rule catalog, construction is exactly the literal path
with no notification. -/
theorem Factory.construct_nil_rules (race : Bool) (f : Factory)
    (e : Expr) :
    Factory.construct race [] f e
      = ((f.onConstruct race e).factory, (f.onConstruct race e).group,
          []) := rfl

/-- When the matched-rule callback vetoes every rule name, no candidate
rule is selected. -/
theorem Factory.findMatch_of_all_vetoed (f : Factory) (e : Expr)
    (h : ∀ name, f.matchedRuleAllows name = false) (rules : List Rule) :
    f.findMatch e rules = none := by
  induction rules with
  | nil => rfl
  | cons r rest ih => simp [Factory.findMatch, h r.name, ih]

/-- `ConstructConstVal` does not touch the root properties. -/
theorem Factory.constructConstVal_rootProps (race : Bool) (f : Factory)
    (d : Datum) :
    (f.ConstructConstVal race d).1.mem.rootProps = f.mem.rootProps := by
  unfold Factory.ConstructConstVal
  cases d with
  | dNull => exact Memo.memoize_rootProps _ _
  | dBool b => cases b <;> exact Memo.memoize_rootProps _ _
  | dOther k v => exact Memo.memoize_rootProps _ _

/-- The child-rebuild fold preserves the root properties whenever each
step does. -/
theorem assignChildren_rootProps (step : Factory → Nat → Factory × Nat)
    (hstep : ∀ f g, (step f g).1.mem.rootProps = f.mem.rootProps)
    (f : Factory) (gs : List Nat) :
    (assignChildren step f gs).1.mem.rootProps = f.mem.rootProps := by
  induction gs generalizing f with
  | nil => rfl
  | cons g gs ih =>
      show (assignChildren step (step f g).1 gs).1.mem.rootProps
        = f.mem.rootProps
      rw [ih]
      exact hstep f g

/-- With an empty rule catalog, the placeholder walk preserves the root
properties. -/
theorem assignGroup_nil_rules_rootProps (race : Bool)
    (asgn : Nat → Datum) (fuel : Nat) (f : Factory) (g : Nat) :
    (assignGroup race [] asgn fuel f g).1.mem.rootProps
      = f.mem.rootProps := by
  induction fuel generalizing f g with
  | zero => rfl
  | succ fuel ih =>
      show (match f.mem.groups[g]? with
        | none => (f, g)
        | some e =>
            if e.op = Op.placeholderOp then
              f.ConstructConstVal race (asgn e.data)
            else
              let r := assignChildren
                (fun f1 c => assignGroup race [] asgn fuel f1 c) f
                e.children
              let c := Factory.construct race [] r.1 ⟨e.op, e.data, r.2⟩
              (c.1, c.2.1)).1.mem.rootProps = f.mem.rootProps
      cases hg : f.mem.groups[g]? with
      | none => rfl
      | some e =>
          by_cases hop : e.op = Op.placeholderOp
          · simp only [hop, if_pos]
            exact Factory.constructConstVal_rootProps race f (asgn e.data)
          · simp only [hop, if_neg, if_false]
            rw [Factory.construct_nil_rules]
            show ((assignChildren
                (fun f1 c => assignGroup race [] asgn fuel f1 c) f
                e.children).1.onConstruct race
                _).factory.mem.rootProps = f.mem.rootProps
            rw [Factory.onConstruct_rootProps]
            exact assignChildren_rootProps _ (fun f1 c => ih f1 c) f
              e.children

end Norm

/-- C7: the derived-property consistency check runs on a constructed
expression iff the race-enabled configuration flag is set (`checkRun` is
`some` exactly then), and in either configuration `onConstruct` returns
the same group id and builds the same memo for the same input: the check
never alters the result. -/
theorem claim_C7_check_race_gated (f : Factory) (e : Expr) :
    (f.onConstruct true e).checkRun.isSome = true ∧
      (f.onConstruct false e).checkRun = none ∧
      (f.onConstruct true e).group = (f.onConstruct false e).group ∧
      (f.onConstruct true e).factory.mem
        = (f.onConstruct false e).factory.mem :=
  ⟨rfl, rfl, rfl, rfl⟩

/-- C4 counterexample: on a concrete prepared memo whose root is a
placeholder leaf, `AssignPlaceholders` installs the rebuilt root's group
id, but the properties it installs are the pre-rebinding root's
properties, not the re-derived properties of the rebuilt root — refuting
the claim at this input. -/
theorem claim_C4_assign_placeholders_counterexample :
    (Factory.AssignPlaceholders false [] (fun _ => Datum.dOther 0 7)
        phFactory).mem.rootGroup = 1 ∧
      (Factory.AssignPlaceholders false [] (fun _ => Datum.dOther 0 7)
          phFactory).mem.groups[1]? = some ⟨Op.constOp, 0, []⟩ ∧
      (Factory.AssignPlaceholders false [] (fun _ => Datum.dOther 0 7)
          phFactory).mem.rootProps ≠ deriveProps ⟨Op.constOp, 0, []⟩ ∧
      (Factory.AssignPlaceholders false [] (fun _ => Datum.dOther 0 7)
          phFactory).mem.rootProps
        = deriveProps ⟨Op.placeholderOp, 0, []⟩ := by
  decide

/-- C4 (amended): after `AssignPlaceholders`, the memo's root is the
group id produced by rebuilding the rooted tree through the construction
protocol, and the properties installed by `SetRoot` are the memo's
existing root properties — `RootProps` read before the root is
replaced — carried over unchanged, not re-derived from the rebuilt
root. -/
theorem claim_C4_assign_placeholders_amended (race : Bool)
    (asgn : Nat → Datum) (f : Factory) :
    (Factory.AssignPlaceholders race [] asgn f).mem.rootGroup
        = (assignGroup race [] asgn (f.mem.rootGroup + 1) f
            f.mem.rootGroup).2 ∧
      (Factory.AssignPlaceholders race [] asgn f).mem.rootProps
        = f.mem.rootProps := by
  constructor
  · rfl
  · show (assignGroup race [] asgn (f.mem.rootGroup + 1) f
        f.mem.rootGroup).1.mem.rootProps = f.mem.rootProps
    exact assignGroup_nil_rules_rootProps race asgn _ f _

/-- C5: after `DisableOptimizations`, the installed matched-rule callback
returns false for every rule name, so for any input and any rule catalog
every normalization rule is skipped: construction is exactly the literal
memoized construction of the input, with zero applied-rule notifications
recorded. -/
theorem claim_C5_disable_optimizations (race : Bool) (rules : List Rule)
    (f : Factory) (e : Expr) :
    (∀ name, f.DisableOptimizations.matchedRuleAllows name = false) ∧
      Factory.construct race rules f.DisableOptimizations e
        = ((f.DisableOptimizations.onConstruct race e).factory,
            (f.DisableOptimizations.onConstruct race e).group, []) ∧
      (Factory.construct race rules f.DisableOptimizations
          e).1.mem.groups[(Factory.construct race rules
          f.DisableOptimizations e).2.1]? = some e := by
  have hveto : ∀ name,
      f.DisableOptimizations.matchedRuleAllows name = false :=
    fun _ => rfl
  have hnone :=
    Factory.findMatch_of_all_vetoed f.DisableOptimizations e hveto rules
  have hcon : Factory.construct race rules f.DisableOptimizations e
      = ((f.DisableOptimizations.onConstruct race e).factory,
          (f.DisableOptimizations.onConstruct race e).group, []) := by
    unfold Factory.construct
    rw [hnone]
  refine ⟨hveto, hcon, ?_⟩
  rw [hcon]
  exact Factory.onConstruct_entry race f.DisableOptimizations e

/-- C9: `ConstructConstVal` is an exhaustive case split on its datum —
the null datum constructs the Null operator carrying the Unknown type, a
boolean datum constructs True when true and False when false, and every
other datum constructs Const over the interned datum; every datum falls
in one of these four outcomes. -/
theorem claim_C9_construct_const_val (race : Bool) (f : Factory)
    (d : Datum) :
    (d = Datum.dNull →
      (f.ConstructConstVal race d).1.mem.groups[(f.ConstructConstVal race
            d).2]?
          = some ⟨Op.nullOp, (f.InternType Ty.unknown).2, []⟩ ∧
        (f.ConstructConstVal race d).1.mem.typeTable[(f.InternType
            Ty.unknown).2]? = some Ty.unknown) ∧
      (d = Datum.dBool true →
        (f.ConstructConstVal race d).1.mem.groups[(f.ConstructConstVal
            race d).2]? = some ⟨Op.trueOp, 0, []⟩) ∧
      (d = Datum.dBool false →
        (f.ConstructConstVal race d).1.mem.groups[(f.ConstructConstVal
            race d).2]? = some ⟨Op.falseOp, 0, []⟩) ∧
      ((d ≠ Datum.dNull ∧ ∀ b, d ≠ Datum.dBool b) →
        (f.ConstructConstVal race d).1.mem.groups[(f.ConstructConstVal
              race d).2]?
            = some ⟨Op.constOp, (f.InternDatum d).2, []⟩ ∧
          (f.ConstructConstVal race d).1.mem.datumTable[(f.InternDatum
              d).2]? = some d) ∧
      (d = Datum.dNull ∨ (∃ b, d = Datum.dBool b) ∨
        (d ≠ Datum.dNull ∧ ∀ b, d ≠ Datum.dBool b)) := by
  refine ⟨?_, ?_, ?_, ?_, ?_⟩
  · intro hd
    subst hd
    constructor
    · exact
        Factory.onConstruct_entry race (f.InternType Ty.unknown).1
          ⟨Op.nullOp, (f.InternType Ty.unknown).2, []⟩
    · show ((f.InternType Ty.unknown).1.mem.memoizeNormExpr
          ⟨Op.nullOp, (f.InternType Ty.unknown).2,
            []⟩).1.typeTable[(f.InternType Ty.unknown).2]?
        = some Ty.unknown
      rw [Memo.memoize_typeTable]
      exact intern_entry f.mem.typeTable Ty.unknown
  · intro hd
    subst hd
    exact Factory.onConstruct_entry race f ⟨Op.trueOp, 0, []⟩
  · intro hd
    subst hd
    exact Factory.onConstruct_entry race f ⟨Op.falseOp, 0, []⟩
  · intro hd
    cases d with
    | dNull => exact absurd rfl hd.1
    | dBool b => exact absurd rfl (hd.2 b)
    | dOther k v =>
        constructor
        · exact
            Factory.onConstruct_entry race
              (f.InternDatum (Datum.dOther k v)).1
              ⟨Op.constOp, (f.InternDatum (Datum.dOther k v)).2, []⟩
        · show ((f.InternDatum (Datum.dOther k v)).1.mem.memoizeNormExpr
              ⟨Op.constOp, (f.InternDatum (Datum.dOther k v)).2,
                []⟩).1.datumTable[(f.InternDatum (Datum.dOther k v)).2]?
            = some (Datum.dOther k v)
          rw [Memo.memoize_datumTable]
          exact intern_entry f.mem.datumTable (Datum.dOther k v)
  · cases d with
    | dNull => exact Or.inl rfl
    | dBool b => exact Or.inr (Or.inl ⟨b, rfl⟩)
    | dOther k v =>
        exact Or.inr (Or.inr ⟨fun h => (nomatch h), fun _ h => (nomatch h)⟩)

/-- Witness for C9 at a concrete factory and each datum shape. -/
theorem claim_C9_construct_const_val_witness :
    ((sampleFactory.ConstructConstVal false
          Datum.dNull).1.mem.groups[(sampleFactory.ConstructConstVal false
          Datum.dNull).2]?
        = some ⟨Op.nullOp, (sampleFactory.InternType Ty.unknown).2, []⟩ ∧
      (sampleFactory.ConstructConstVal false
          Datum.dNull).1.mem.typeTable[(sampleFactory.InternType
          Ty.unknown).2]? = some Ty.unknown) ∧
      (sampleFactory.ConstructConstVal false (Datum.dBool
            true)).1.mem.groups[(sampleFactory.ConstructConstVal false
            (Datum.dBool true)).2]? = some ⟨Op.trueOp, 0, []⟩ ∧
      (sampleFactory.ConstructConstVal false (Datum.dOther 3
            5)).1.mem.groups[(sampleFactory.ConstructConstVal false
            (Datum.dOther 3 5)).2]?
        = some ⟨Op.constOp, (sampleFactory.InternDatum (Datum.dOther 3
            5)).2, []⟩ :=
  ⟨(claim_C9_construct_const_val false sampleFactory Datum.dNull).1 rfl,
    (claim_C9_construct_const_val false sampleFactory
        (Datum.dBool true)).2.1 rfl,
    ((claim_C9_construct_const_val false sampleFactory
        (Datum.dOther 3 5)).2.2.2.1
      ⟨fun h => (nomatch h), fun _ h => (nomatch h)⟩).1⟩

/-- C10: `Init` fully resets per-instance state — the memo is blank, both
callbacks are nil so all rules apply by default, and the cycle-guard
stack is empty so `detectCycle` returns false for every fingerprint; at
slice granularity, `ruleCycles.init` truncates a non-nil stack in place,
keeping its backing storage (same capacity, same nil-ness) rather than
allocating. -/
theorem claim_C10_init_resets (f : Factory) (ctx : Nat) :
    (f.Init ctx).mem = Memo.blank ∧
      (f.Init ctx).matchedRule = none ∧
      (f.Init ctx).appliedRule = false ∧
      (∀ name, (f.Init ctx).matchedRuleAllows name = true) ∧
      (f.Init ctx).ruleCycles.stack = [] ∧
      (∀ fp, (f.Init ctx).ruleCycles.detectCycle fp = false) ∧
      (∀ s : GoSlice Fingerprint,
        (ruleCyclesInitSlice s).data = [] ∧
          (ruleCyclesInitSlice s).cap = s.cap ∧
          (ruleCyclesInitSlice s).isNil = s.isNil) := by
  refine ⟨rfl, rfl, rfl, fun _ => rfl, rfl, fun fp => rfl, fun s => ?_⟩
  unfold ruleCyclesInitSlice
  by_cases h : s.isNil = true
  · rw [dif_pos h]
    exact ⟨(s.nil_no_storage h).1, rfl, rfl⟩
  · rw [dif_neg h]
    exact ⟨rfl, rfl, rfl⟩
